import Mathlib

/-!
The human-pose decoding core of `ros2_openvino_toolkit`.

A shallow embedding of

* `openvino_wrapper_lib/inferences/human_pose_estimation.hpp`
  (`HumanPoseEstimationResult`, `HumanPoseEstimation`, `FindPeaksBody`),
* `dynamic_vino_lib/inferences/person_attribs_detection.hpp`
  (`PersonAttribsDetectionResult`),

together with a model of the decode pipeline behind `extractPoses`, whose body is
not part of the sources at hand and is therefore written from the specification.

Conventions.  `std::vector` is `List`; `int` is `Int`; `size_t` is `Nat`; a `float`
is the rational number it denotes (a literal such as `0.05f` is the decimal `5/100`);
a member function that may touch its object returns the object next to its result.
-/

namespace Ros2Openvino

/-! ## Plain data -/

/-- The OpenCV rectangle `cv::Rect` (integer corner and extent). -/
structure Rect where
  x : Int
  y : Int
  width : Int
  height : Int
deriving DecidableEq

/-- The OpenCV matrix `cv::Mat` of one feature map: rows of 32-bit floats. -/
abbrev Mat := List (List ℚ)

/-- Modelled from the spec: the type `HumanPose` (declared in `openpose_decoder.hpp`,
which is not among the sources).  Section 3 of the specification: "keypoints: fixed-size
array of (position, confidence) indexed by keypoint type, overallScore: float". -/
structure HumanPose where
  keypoints : List ((ℚ × ℚ) × ℚ)
  overallScore : ℚ
deriving DecidableEq

/-- Modelled from the spec: the type `Peak` (declared in `openpose_decoder.hpp`, which is
not among the sources).  Section 3: "id: integer, channel: keypoint-type index,
position: (x, y) in working resolution, confidence: float". -/
structure Peak where
  id : Nat
  channel : Nat
  x : ℚ
  y : ℚ
  confidence : ℚ
deriving DecidableEq

/-- The table `std::vector<std::vector<Peak>>`: slot `i` holds the peaks of channel `i`. -/
abbrev PeakTable := List (List Peak)

/-! ## `person_attribs_detection.hpp` -/

/-- The class `PersonAttribsDetectionResult` (lines 37-78): the private members of lines
73-77, after the region of interest kept by the base class `Result`. -/
structure PersonAttribsDetectionResult where
  location : Rect
  male_probability_ : ℚ
  attributes_probability_ : List ℚ
  top_point_ : ℚ × ℚ
  bottom_point_ : ℚ × ℚ
  attributes_ : String
deriving DecidableEq

/-- The getter of lines 59-62, `bool getMaleProbability() const { return male_probability_; }`.
The `float` member is returned through the return type `bool`; the implicit conversion of
C++ yields `false` for a zero value and `true` for every other value.  The method is
`const`: the object comes back as it went in. -/
def PersonAttribsDetectionResult.getMaleProbability (self : PersonAttribsDetectionResult) :
    Bool × PersonAttribsDetectionResult :=
  (self.male_probability_ != 0, self)

/-! ## `human_pose_estimation.hpp`: the result class -/

/-- Modelled from the spec: the base class `Result` (declared in `base_inference.hpp`,
which is not among the sources).  Section 6: each pose comes with "the originating
frame's region-of-interest"; the base class keeps that rectangle. -/
structure Result where
  location : Rect
deriving DecidableEq

/-- The class `HumanPoseEstimationResult` (lines 43-66): the base `Result` and the single
private member `HumanPose poses` of line 63 (line 62, a vector of poses, is commented
out in the source). -/
structure HumanPoseEstimationResult extends Result where
  poses : HumanPose
deriving DecidableEq

/-- Modelled from the spec: the constructor declared at line 47,
`explicit HumanPoseEstimationResult(const cv::Rect & location)`, whose body is not among the
sources.  As section 6 has it, the rectangle is kept with the result, in the base `Result`.
The member `poses` is default-constructed; `HumanPose` being declared elsewhere, that
default value is the parameter `init`. -/
def HumanPoseEstimationResult.new (location : Rect) (init : HumanPose) :
    HumanPoseEstimationResult :=
  HumanPoseEstimationResult.mk (Result.mk location) init

/-- The getter of lines 57-60, `HumanPose get_pose() const { return poses; }`. -/
def HumanPoseEstimationResult.get_pose (self : HumanPoseEstimationResult) :
    HumanPose × HumanPoseEstimationResult :=
  (self.poses, self)

/-! ## `human_pose_estimation.hpp`: the inference class -/

/-- The data members of the class `HumanPoseEstimation` (lines 129-144) with their in-class
initialisers.  `valid_model_` (a pointer to the loaded network) plays no part in the
decode and is left out; `frame_size` is a default-constructed `cv::Size`. -/
structure HumanPoseEstimation where
  upsampleRatio : Int := 4
  stride : Int := 8
  keypointsNumber : Nat := 18
  minJointsNumber : Int := 3
  minPeaksDistance : ℚ := 3
  midPointsScoreThreshold : ℚ := 5 / 100
  foundMidPointsRatioThreshold : ℚ := 8 / 10
  minSubsetScore : ℚ := 2 / 10
  confidenceThreshold : ℚ := 1 / 2
  frame_size : Int × Int := (0, 0)
  results_ : List HumanPoseEstimationResult := []
deriving DecidableEq

/-- The constructor of line 75, `HumanPoseEstimation();`.  It has no parameter; every
member is as its in-class initialiser of lines 130-140 leaves it. -/
def HumanPoseEstimation.new : HumanPoseEstimation := {}

/-- The eight decoding constants named in section 6 of the specification. -/
structure DecodingConstants where
  confidenceThreshold : ℚ
  minPeaksDistance : ℚ
  midPointsScoreThreshold : ℚ
  foundMidPointsRatioThreshold : ℚ
  minSubsetScore : ℚ
  minJointsNumber : Int
  upsampleRatio : Int
  stride : Int
deriving DecidableEq

/-- The decoding constants an instance works with: its private members. -/
def HumanPoseEstimation.constants (self : HumanPoseEstimation) : DecodingConstants :=
  DecodingConstants.mk self.confidenceThreshold self.minPeaksDistance
    self.midPointsScoreThreshold self.foundMidPointsRatioThreshold self.minSubsetScore
    self.minJointsNumber self.upsampleRatio self.stride

/-- The formula of the commented-out line 132,
`6.0f / (stride / upsampleRatio)`: the inner division is the truncating division of two
`int`s, its result is converted to `float` for the outer one. -/
def derivedMinPeaksDistance (stride upsampleRatio : Int) : ℚ :=
  6 / ((Int.tdiv stride upsampleRatio : Int) : ℚ)

/-! ## `human_pose_estimation.hpp`: the parallel loop body `FindPeaksBody` -/

/-- The OpenCV index range `cv::Range`, the half-open interval from `start` up to `end`
(the field `end` of the source is spelt `stop`, `end` being reserved here). -/
structure Range where
  start : Int
  stop : Int
deriving DecidableEq

/-- The free function `findPeaks(heatMaps, minPeaksDistance, allPeaks, heatMapId,
confidenceThreshold)` called at line 162.  It is declared in `openpose_decoder.hpp`, which
is not among the sources, and is a parameter of everything below.  The table is passed by
reference in the source: here the function returns the table it leaves behind. -/
abbrev FindPeaksFn := List Mat → ℚ → PeakTable → Int → ℚ → PeakTable

/-- One call of `findPeaks` as seen by the callee: the value arguments of line 162. -/
structure FindPeaksCall where
  heatMaps : List Mat
  minPeaksDistance : ℚ
  heatMapId : Int
  confidenceThreshold : ℚ
deriving DecidableEq

/-- The value members of `FindPeaksBody` (lines 167-170); `confidenceThreshold` carries the
in-class initialiser `0.5` of line 170.  The reference member `peaksFromHeatMap` designates
a table owned by the caller; it is part of `PeakWorld`. -/
structure FindPeaksBody where
  heatMaps : List Mat
  minPeaksDistance : ℚ
  confidenceThreshold : ℚ := 1 / 2
deriving DecidableEq

/-- The constructor of lines 151-158: each member is initialised from the argument of the
same name (the member initialiser list of lines 155-158). -/
def FindPeaksBody.new (heatMaps : List Mat) (minPeaksDistance : ℚ)
    (confidenceThreshold : ℚ) : FindPeaksBody :=
  FindPeaksBody.mk heatMaps minPeaksDistance confidenceThreshold

/-- What `operator()` acts on: the table behind the reference `peaksFromHeatMap`, and the
log of the calls of `findPeaks` made so far, oldest first. -/
structure PeakWorld where
  peaksFromHeatMap : PeakTable
  calls : List FindPeaksCall
deriving DecidableEq

/-- The statement of line 162: one call of `findPeaks` for channel `i`. -/
def FindPeaksBody.callFindPeaks (findPeaks : FindPeaksFn) (self : FindPeaksBody) (i : Int)
    (w : PeakWorld) : PeakWorld :=
  PeakWorld.mk
    (findPeaks self.heatMaps self.minPeaksDistance w.peaksFromHeatMap i
      self.confidenceThreshold)
    (w.calls ++ [FindPeaksCall.mk self.heatMaps self.minPeaksDistance i
      self.confidenceThreshold])

/-- The loop of lines 161-163, `for (int i = range.start; i < range.end; i++)`, entered
with loop variable `i`; `fuel` bounds the number of iterations.  The variable is incremented
only while it is below `range.end`, so it stays within the range of `int`. -/
def FindPeaksBody.loop (findPeaks : FindPeaksFn) (self : FindPeaksBody) (stop : Int) :
    Nat → Int → PeakWorld → PeakWorld
  | 0, _, w => w
  | fuel + 1, i, w =>
    if i < stop then
      FindPeaksBody.loop findPeaks self stop fuel (i + 1)
        (FindPeaksBody.callFindPeaks findPeaks self i w)
    else w

/-- The member `void operator()(const cv::Range& range) const` of lines 160-164.  The loop
makes at most `range.end - range.start` iterations, which is the fuel it is given. -/
def FindPeaksBody.operator (findPeaks : FindPeaksFn) (self : FindPeaksBody) (range : Range)
    (w : PeakWorld) : PeakWorld :=
  FindPeaksBody.loop findPeaks self range.stop (range.stop - range.start).toNat range.start w

/-- The table `operator()` leaves behind when it starts from the table `table`. -/
def FindPeaksBody.runTable (findPeaks : FindPeaksFn) (self : FindPeaksBody) (range : Range)
    (table : PeakTable) : PeakTable :=
  (FindPeaksBody.operator findPeaks self range (PeakWorld.mk table [])).peaksFromHeatMap

/-- The channel indices of a range in ascending order: `start, start + 1, ...` up to but
not including `stop`. -/
def Range.indices (range : Range) : List Int :=
  (List.range (range.stop - range.start).toNat).map fun (k : Nat) => range.start + Int.ofNat k

/-- A `findPeaks` that writes slot `i` only but reads its right neighbour: slot `i`
receives a marker peak followed by the present content of slot `i + 1`. -/
def neighbourFindPeaks : FindPeaksFn := fun _ _ table i _ =>
  if 0 ≤ i then
    table.set i.toNat (Peak.mk 0 i.toNat 0 0 1 :: table.getD (i.toNat + 1) [])
  else table

/-! ## The decode pipeline behind `extractPoses`

The header declares `extractPoses` (lines 126-127); its body, `findPeaks` and the grouping
of peaks into poses are not among the sources.  The definitions of this section follow
sections 3 to 5 of the specification.  The numerical kernels that the specification gives
by contract only are parameters, collected in `Kernels`. -/

/-- Modelled from the spec: one entry of the limb table, which is not among the sources.
Section 4.3: "a fixed, model-defined list of (channel A, channel B, paf-x index, paf-y
index) tuples". -/
structure Limb where
  channelA : Nat
  channelB : Nat
  pafX : Nat
  pafY : Nat
deriving DecidableEq

/-- Modelled from the spec: the limb candidate, which is not among the sources.
Section 3: "type: limb index, peakA id, peakB id, score: float". -/
structure LimbCandidate where
  type : Nat
  peakA : Nat
  peakB : Nat
  score : ℚ
deriving DecidableEq

/-- Modelled from the spec: the subset, which is not among the sources.  Section 3: "a
slot array of length = number of keypoint types (each slot holds either a Peak id or
absent), plus totalScore: float and jointCount: integer". -/
structure Subset where
  slots : List (Option Nat)
  totalScore : ℚ
  jointCount : Int
deriving DecidableEq

/-- Modelled from the spec: the parts of the decode that are not among the sources and
that the specification describes by contract.
`detect` is the scan-and-suppress of one channel (section 4.2): from the heat map of the
channel, the minimum distance and the confidence threshold to the peaks of the channel,
their global ids not yet assigned.
`limbScore` is the line integral of section 4.3 for one pair of peaks, given the two
mid-point thresholds: the candidate score, or nothing when the pair is not accepted.
`toFrame` is the scaling of section 4.5 from working resolution to frame coordinates,
given the upsample ratio and the stride.
`limbTable` is the fixed list of limb types. -/
structure Kernels where
  detect : Mat → ℚ → ℚ → List Peak
  limbScore : List Mat → Limb → Peak → Peak → ℚ → ℚ → Option ℚ
  toFrame : Int → Int → ℚ × ℚ → ℚ × ℚ
  limbTable : List Limb

/-- Modelled from the spec: `findPeaks`, declared in `openpose_decoder.hpp`, which is not
among the sources.  Sections 4.2 and 5: "each channel's task reads only its own heatmap
slice and writes only its own output slot".  The call for channel `heatMapId` stores the
peaks detected on the heat map of that channel in slot `heatMapId`. -/
def findPeaks (detect : Mat → ℚ → ℚ → List Peak) : FindPeaksFn :=
  fun heatMaps minPeaksDistance table heatMapId confidenceThreshold =>
    if 0 ≤ heatMapId then
      table.set heatMapId.toNat
        (detect (heatMaps.getD heatMapId.toNat []) minPeaksDistance confidenceThreshold)
    else table

/-- Modelled from the spec: the worker pool of section 5, which executes data-parallel
range tasks.  A schedule lists the range tasks in the order in which they
take effect; the body is run on each of them in turn. -/
def runSchedule (findPeaks : FindPeaksFn) (body : FindPeaksBody) (schedule : List Range)
    (table : PeakTable) : PeakTable :=
  schedule.foldl (fun t r => FindPeaksBody.runTable findPeaks body r t) table

/-- A schedule covers `n` channels when its range tasks, taken together, hold each of the
channels `0, ..., n - 1` once and nothing else. -/
def coversChannels (schedule : List Range) (n : Nat) : Prop :=
  (schedule.flatMap Range.indices).Perm ((List.range n).map Int.ofNat)

instance coversChannelsDecidable (schedule : List Range) (n : Nat) :
    Decidable (coversChannels schedule n) :=
  inferInstanceAs
    (Decidable ((schedule.flatMap Range.indices).Perm ((List.range n).map Int.ofNat)))

/-- Modelled from the spec: the numbering of the peaks of one channel, starting at `next`
(section 4.2: "assigned globally unique sequential ids in channel order"). -/
def numberChannel (channel : Nat) : Nat → List Peak → List Peak
  | _, [] => []
  | next, p :: ps =>
    Peak.mk next channel p.x p.y p.confidence :: numberChannel channel (next + 1) ps

/-- Modelled from the spec: the running-offset pass of section 4.2 over the channels
from `channel` on, `offset` peaks having been numbered before ("channel 0's peaks first"). -/
def assignIdsFrom : Nat → Nat → PeakTable → PeakTable
  | _, _, [] => []
  | channel, offset, ps :: rest =>
    numberChannel channel offset ps :: assignIdsFrom (channel + 1) (offset + ps.length) rest

/-- Modelled from the spec: global id assignment (section 4.2), which is not among the
sources: a running offset over the channels in channel order. -/
def assignIds (table : PeakTable) : PeakTable :=
  assignIdsFrom 0 0 table

/-- Modelled from the spec: stage 2 of section 2, the peak finder.  The range tasks of the
schedule run `FindPeaksBody` on a table with one empty slot per heat map; ids are assigned
after all of them ("only a join/barrier before proceeding to global id assignment"). -/
def detectPeaks (K : Kernels) (self : HumanPoseEstimation) (schedule : List Range)
    (heatMaps : List Mat) : PeakTable :=
  assignIds
    (runSchedule (findPeaks K.detect)
      (FindPeaksBody.new heatMaps self.minPeaksDistance self.confidenceThreshold)
      schedule (List.replicate heatMaps.length []))

/-- Modelled from the spec: the candidates of limb type `k` (section 4.3): "for each limb
type and each ordered pair (peakA from channel A, peakB from channel B)", the pairs the
line integral accepts, each with its score. -/
def limbCandidates (K : Kernels) (self : HumanPoseEstimation) (pafs : List Mat)
    (peaks : PeakTable) (k : Nat) (limb : Limb) : List LimbCandidate :=
  (peaks.getD limb.channelA []).flatMap fun a =>
    (peaks.getD limb.channelB []).filterMap fun b =>
      (K.limbScore pafs limb a b self.midPointsScoreThreshold
        self.foundMidPointsRatioThreshold).map fun s => LimbCandidate.mk k a.id b.id s

/-- The order "descending score" of section 4.3. -/
def scoreDescending (c d : LimbCandidate) : Prop := d.score ≤ c.score

instance scoreDescendingDecidable : DecidableRel scoreDescending :=
  fun c d => inferInstanceAs (Decidable (d.score ≤ c.score))

/-- Modelled from the spec: the limb scorer over the limb types from index `k` on
(sections 4.3 and 4.4): candidates "by limb type, most-confident first within each type",
the types in the order of the limb table. -/
def scoreLimbsFrom (K : Kernels) (self : HumanPoseEstimation) (pafs : List Mat)
    (peaks : PeakTable) : Nat → List Limb → List LimbCandidate
  | _, [] => []
  | k, limb :: rest =>
    List.insertionSort scoreDescending (limbCandidates K self pafs peaks k limb)
      ++ scoreLimbsFrom K self pafs peaks (k + 1) rest

/-- Modelled from the spec: `scoreLimbs(pafs, peaksByChannel, limbTable)` of section 4.3,
which is not among the sources. -/
def scoreLimbs (K : Kernels) (self : HumanPoseEstimation) (pafs : List Mat)
    (peaks : PeakTable) : List LimbCandidate :=
  scoreLimbsFrom K self pafs peaks 0 K.limbTable

/-- The peak with the given id, if the table has one. -/
def lookupPeak (peaks : PeakTable) (id : Nat) : Option Peak :=
  peaks.flatten.find? fun p => decide (p.id = id)

/-- The confidence of the peak with the given id (0 when there is no such peak). -/
def peakConfidence (peaks : PeakTable) (id : Nat) : ℚ :=
  match lookupPeak peaks id with
  | some p => p.confidence
  | none => 0

/-- The index of the first subset of the table that has peak `p` in one of its slots. -/
def findHolder (p : Nat) : List Subset → Option Nat
  | [] => none
  | s :: rest =>
    if some p ∈ s.slots then some 0 else (findHolder p rest).map (· + 1)

/-- Modelled from the spec: section 4.4, first rule: "start a new Subset with both in their
respective slots, jointCount = 2, totalScore = sum of the two peaks' confidences plus the
candidate score". -/
def newSubset (keypointsNumber : Nat) (limb : Limb) (c : LimbCandidate)
    (confidence : Nat → ℚ) : Subset :=
  Subset.mk
    (((List.replicate keypointsNumber none).set limb.channelA (some c.peakA)).set
      limb.channelB (some c.peakB))
    (confidence c.peakA + confidence c.peakB + c.score) 2

/-- Modelled from the spec: section 4.4, second rule: when the slot of the missing peak is
empty in subset `i`, "add the missing peak to S's slot, increment jointCount, accumulate
score"; the table is left as it is otherwise. -/
def addPeak (table : List Subset) (i slot peak : Nat) (gain : ℚ) : List Subset :=
  match table[i]? with
  | none => table
  | some s =>
    if s.slots[slot]? = some none then
      table.set i (Subset.mk (s.slots.set slot (some peak)) (s.totalScore + gain)
        (s.jointCount + 1))
    else table

/-- Modelled from the spec: section 4.4, the conflict of two slot arrays: "same keypoint
type filled in both with different peak ids". -/
def slotsConflict : List (Option Nat) → List (Option Nat) → Bool
  | some p :: xs, some q :: ys => p != q || slotsConflict xs ys
  | _ :: xs, _ :: ys => slotsConflict xs ys
  | _, _ => false

/-- Modelled from the spec: section 4.4, "union the slot arrays": slot by slot, the peak of
the first array, or else the peak of the second. -/
def unionSlots : List (Option Nat) → List (Option Nat) → List (Option Nat)
  | x :: xs, y :: ys => (x <|> y) :: unionSlots xs ys
  | [], ys => ys
  | xs, [] => xs

/-- Modelled from the spec: section 4.4, third rule, for two different subsets `i` and `j`:
"merge the two Subsets into one if none of their occupied slots conflict - on merge, union
the slot arrays, sum scores and joint counts, discard the absorbed Subset.  If slots
conflict, skip the candidate".  Subset `i` absorbs subset `j`. -/
def mergeSubsets (table : List Subset) (i j : Nat) : List Subset :=
  match table[i]?, table[j]? with
  | some s, some u =>
    if slotsConflict s.slots u.slots then table
    else
      (table.set i (Subset.mk (unionSlots s.slots u.slots) (s.totalScore + u.totalScore)
        (s.jointCount + u.jointCount))).eraseIdx j
  | _, _ => table

/-- Modelled from the spec: one step of the subset assembler of section 4.4, for the limb
candidate `c`, by the three rules of that section.  A candidate of a limb type outside the
limb table is skipped. -/
def assembleStep (keypointsNumber : Nat) (limbTable : List Limb) (confidence : Nat → ℚ)
    (table : List Subset) (c : LimbCandidate) : List Subset :=
  match limbTable[c.type]? with
  | none => table
  | some limb =>
    match findHolder c.peakA table, findHolder c.peakB table with
    | none, none => table ++ [newSubset keypointsNumber limb c confidence]
    | some i, none => addPeak table i limb.channelB c.peakB (confidence c.peakB + c.score)
    | none, some j => addPeak table j limb.channelA c.peakA (confidence c.peakA + c.score)
    | some i, some j => if i = j then table else mergeSubsets table i j

/-- Modelled from the spec: the subset assembler of section 4.4 before the final filter:
"a growable table of Subsets, initially empty", the candidates processed in order. -/
def assemble (keypointsNumber : Nat) (limbTable : List Limb) (confidence : Nat → ℚ)
    (candidates : List LimbCandidate) : List Subset :=
  candidates.foldl (assembleStep keypointsNumber limbTable confidence) []

/-- Modelled from the spec: the final filter of section 4.4, "drop any Subset with
jointCount < minJoints or totalScore / jointCount < minScore". -/
def Subset.accepted (minJoints : Int) (minScore : ℚ) (s : Subset) : Bool :=
  !(decide (s.jointCount < minJoints)
    || decide (s.totalScore / (s.jointCount : ℚ) < minScore))

/-- Modelled from the spec: the subsets that survive the decode (stages 2 to 4 of section 2)
of one pair of tensor lists. -/
def acceptedSubsets (K : Kernels) (self : HumanPoseEstimation) (schedule : List Range)
    (heatMaps pafs : List Mat) : List Subset :=
  (assemble self.keypointsNumber K.limbTable
      (peakConfidence (detectPeaks K self schedule heatMaps))
      (scoreLimbs K self pafs (detectPeaks K self schedule heatMaps))).filter
    (Subset.accepted self.minJointsNumber self.minSubsetScore)

/-- Modelled from the spec: the pose materializer of section 4.5 for one subset: each
occupied slot gives the position of its peak in frame coordinates and its confidence,
"each slot's absent entries reported as a missing keypoint with confidence 0". -/
def materialize (K : Kernels) (self : HumanPoseEstimation) (peaks : PeakTable)
    (s : Subset) : HumanPose :=
  HumanPose.mk
    (s.slots.map fun slot =>
      match slot.bind (lookupPeak peaks) with
      | some p => (K.toFrame self.upsampleRatio self.stride (p.x, p.y), p.confidence)
      | none => ((0, 0), 0))
    s.totalScore

/-- Modelled from the spec: `HumanPoseEstimation::extractPoses` (declared at lines 126-127,
its body is not among the sources): stages 2 to 5 of section 2 on the heat maps and part
affinity fields.  Section 9 asks for a decode that is "side-effect-free": the instance
comes back as it went in. -/
def HumanPoseEstimation.extractPoses (K : Kernels) (self : HumanPoseEstimation)
    (schedule : List Range) (heatMaps pafs : List Mat) :
    List HumanPose × HumanPoseEstimation :=
  ((acceptedSubsets K self schedule heatMaps pafs).map
      (materialize K self (detectPeaks K self schedule heatMaps)),
    self)

/-- The instance `self` with its minimum joint count set to `minJoints`. -/
def HumanPoseEstimation.withMinJoints (self : HumanPoseEstimation) (minJoints : Int) :
    HumanPoseEstimation :=
  HumanPoseEstimation.mk self.upsampleRatio self.stride self.keypointsNumber minJoints
    self.minPeaksDistance self.midPointsScoreThreshold self.foundMidPointsRatioThreshold
    self.minSubsetScore self.confidenceThreshold self.frame_size self.results_

/-- The total number of slots, over all subsets of the table, that hold peak `p`. -/
def occurrences (p : Nat) (table : List Subset) : Nat :=
  (table.map fun s => s.slots.count (some p)).sum

/-- A candidate is well formed for a limb table when the limb type it names has two
different channels unless its two peaks are the same peak. -/
def WellFormed (limbTable : List Limb) (c : LimbCandidate) : Prop :=
  ∀ limb, limbTable[c.type]? = some limb → c.peakA = c.peakB →
    limb.channelA = limb.channelB

/-! ## A small instance -/

/-- A detector to run the decode on: every cell of the heat map above the confidence
threshold is a peak, in scan order (no suppression by distance). -/
def sampleDetect : Mat → ℚ → ℚ → List Peak := fun heatMap _ confidenceThreshold =>
  heatMap.enum.flatMap fun row =>
    row.2.enum.filterMap fun cell =>
      if confidenceThreshold < cell.2 then
        some (Peak.mk 0 0 (cell.1 : ℚ) (row.1 : ℚ) cell.2)
      else none

/-- Kernels to run the decode on: `sampleDetect`; a line integral that accepts two peaks
of the same column with score 0.9; frame coordinates `stride / upsampleRatio` times the
working coordinates; two limb types, from channel 0 to channel 1 and from channel 1 to
channel 2. -/
def sampleKernels : Kernels :=
  Kernels.mk sampleDetect
    (fun _ _ a b _ _ => if a.x = b.x then some (9 / 10) else none)
    (fun upsampleRatio stride pos =>
      (pos.1 * (stride : ℚ) / (upsampleRatio : ℚ), pos.2 * (stride : ℚ) / (upsampleRatio : ℚ)))
    [Limb.mk 0 1 0 1, Limb.mk 1 2 2 3]

/-- Three heat maps of two rows and three columns.  Channel 0 has one cell above 0.5, in
column 1; channels 1 and 2 have two each, in columns 1 and 2. -/
def sampleHeatMaps : List Mat :=
  [[[0, 9 / 10, 0], [0, 0, 0]],
   [[0, 0, 0], [0, 8 / 10, 7 / 10]],
   [[0, 0, 6 / 10], [0, 8 / 10, 0]]]

/-- An instance with the default constants whose result buffer and frame size are not the
initial ones. -/
def sampleUsedInstance : HumanPoseEstimation :=
  HumanPoseEstimation.mk 4 8 18 3 3 (5 / 100) (8 / 10) (2 / 10) (1 / 2) (640, 480)
    [HumanPoseEstimationResult.new (Rect.mk 0 0 640 480) (HumanPose.mk [] 0)]

/-- A number of calls of `findPeaks` made one after the other, for the channels listed. -/
theorem foldl_callFindPeaks_calls (findPeaks : FindPeaksFn) (self : FindPeaksBody)
    (is : List Int) (w : PeakWorld) :
    (is.foldl (fun w i => FindPeaksBody.callFindPeaks findPeaks self i w) w).calls
      = w.calls ++ is.map (fun i => FindPeaksCall.mk self.heatMaps self.minPeaksDistance i
          self.confidenceThreshold) := by
  induction is generalizing w with
  | nil => simp
  | cons i rest ih =>
    rw [List.foldl_cons, ih]
    simp [FindPeaksBody.callFindPeaks]

theorem foldl_callFindPeaks_table (findPeaks : FindPeaksFn) (self : FindPeaksBody)
    (is : List Int) (w : PeakWorld) :
    (is.foldl (fun w i => FindPeaksBody.callFindPeaks findPeaks self i w) w).peaksFromHeatMap
      = is.foldl (fun t i => findPeaks self.heatMaps self.minPeaksDistance t i
          self.confidenceThreshold) w.peaksFromHeatMap := by
  induction is generalizing w with
  | nil => simp
  | cons i rest ih =>
    rw [List.foldl_cons, ih]
    simp [FindPeaksBody.callFindPeaks]

/-- With enough fuel the loop entered at `i` makes the calls for `i, i + 1, ...` up to
`stop`, in this order, and nothing else. -/
theorem loop_eq_foldl (findPeaks : FindPeaksFn) (self : FindPeaksBody) (stop : Int) :
    ∀ (fuel : Nat) (i : Int) (w : PeakWorld), (stop - i).toNat ≤ fuel →
      FindPeaksBody.loop findPeaks self stop fuel i w
        = (Range.indices (Range.mk i stop)).foldl
            (fun w i => FindPeaksBody.callFindPeaks findPeaks self i w) w := by
  intro fuel
  induction fuel with
  | zero =>
    intro i w h
    have h0 : (stop - i).toNat = 0 := by omega
    simp [FindPeaksBody.loop, Range.indices, h0]
  | succ n ih =>
    intro i w h
    by_cases hlt : i < stop
    · have hn : (stop - i).toNat = (stop - (i + 1)).toNat + 1 := by omega
      have hle : (stop - (i + 1)).toNat ≤ n := by omega
      simp only [FindPeaksBody.loop, if_pos hlt, ih (i + 1) _ hle, Range.indices, hn,
        List.range_succ_eq_map, List.map_cons, List.foldl_cons, List.map_map]
      congr 1
      · simp
      · apply List.map_congr_left
        intro k _
        simp only [Function.comp, Nat.succ_eq_add_one, Int.ofNat_eq_coe]
        push_cast
        ring
    · have h0 : (stop - i).toNat = 0 := by omega
      simp [FindPeaksBody.loop, if_neg hlt, Range.indices, h0]

theorem operator_eq_foldl (findPeaks : FindPeaksFn) (self : FindPeaksBody) (range : Range)
    (w : PeakWorld) :
    FindPeaksBody.operator findPeaks self range w
      = range.indices.foldl (fun w i => FindPeaksBody.callFindPeaks findPeaks self i w) w := by
  unfold FindPeaksBody.operator
  rw [loop_eq_foldl findPeaks self range.stop _ range.start w (le_refl _)]

theorem runTable_eq_foldl (findPeaks : FindPeaksFn) (self : FindPeaksBody) (range : Range)
    (table : PeakTable) :
    FindPeaksBody.runTable findPeaks self range table
      = range.indices.foldl (fun t i => findPeaks self.heatMaps self.minPeaksDistance t i
          self.confidenceThreshold) table := by
  unfold FindPeaksBody.runTable
  rw [operator_eq_foldl, foldl_callFindPeaks_table]

theorem mem_indices (range : Range) (i : Int) :
    i ∈ range.indices ↔ range.start ≤ i ∧ i < range.stop := by
  simp only [Range.indices, List.mem_map, List.mem_range]
  constructor
  · rintro ⟨k, hk, rfl⟩
    simp only [Int.ofNat_eq_coe]
    omega
  · rintro ⟨h1, h2⟩
    refine ⟨(i - range.start).toNat, ?_, ?_⟩
    · omega
    · simp only [Int.ofNat_eq_coe]
      omega

theorem indices_pairwise (range : Range) : range.indices.Pairwise (· < ·) := by
  unfold Range.indices
  rw [List.pairwise_map]
  refine (List.pairwise_lt_range _).imp ?_
  intro a b h
  simp only [Int.ofNat_eq_coe]
  omega

theorem indices_nodup (range : Range) : range.indices.Nodup :=
  (indices_pairwise range).imp (fun h => ne_of_lt h)

/-- The channels of `[a, c)` are those of `[a, b)` followed by those of `[b, c)`. -/
theorem indices_append (a b c : Int) (hab : a ≤ b) (hbc : b ≤ c) :
    (Range.mk a c).indices = (Range.mk a b).indices ++ (Range.mk b c).indices := by
  have hn : (c - a).toNat = (b - a).toNat + (c - b).toNat := by omega
  simp only [Range.indices, hn, List.range_add, List.map_append, List.map_map]
  congr 1
  apply List.map_congr_left
  intro k _
  simp only [Function.comp, Int.ofNat_eq_coe]
  push_cast
  omega

/-- Running the body over `[a, c)` is running it over `[a, b)` and then over `[b, c)`,
whatever `findPeaks` does. -/
theorem runTable_split_in_order (findPeaks : FindPeaksFn) (self : FindPeaksBody)
    (a b c : Int) (hab : a ≤ b) (hbc : b ≤ c) (table : PeakTable) :
    FindPeaksBody.runTable findPeaks self (Range.mk a c) table
      = FindPeaksBody.runTable findPeaks self (Range.mk b c)
          (FindPeaksBody.runTable findPeaks self (Range.mk a b) table) := by
  rw [runTable_eq_foldl, runTable_eq_foldl, runTable_eq_foldl, indices_append a b c hab hbc,
    List.foldl_append]

/-- Calls of a `findPeaks` that writes its own slot only leave the slot of a channel that
is not called for as it was. -/
theorem foldl_frame_getElem? (step : PeakTable → Int → PeakTable)
    (hframe : ∀ (t : PeakTable) (i : Int) (j : Nat), (j : Int) ≠ i → (step t i)[j]? = t[j]?)
    (j : Nat) :
    ∀ (is : List Int), (j : Int) ∉ is → ∀ (t : PeakTable), (is.foldl step t)[j]? = t[j]? := by
  intro is
  induction is with
  | nil => intro _ t; rfl
  | cons i rest ih =>
    intro hj t
    rw [List.foldl_cons, ih (fun h => hj (List.mem_cons_of_mem _ h)) (step t i)]
    exact hframe t i j (fun h => hj (h ▸ List.mem_cons_self _ _))

/-- Calls of a `findPeaks` that writes its own slot only and decides what it writes from
the old content of that slot only: after the calls for the distinct channels `is`, slot `j`
holds what a single call for `j` on the first table writes if `j` is listed, and is as it
was otherwise. -/
theorem foldl_local_getElem? (step : PeakTable → Int → PeakTable)
    (hframe : ∀ (t : PeakTable) (i : Int) (j : Nat), (j : Int) ≠ i → (step t i)[j]? = t[j]?)
    (hlocal : ∀ (t u : PeakTable) (j : Nat), t[j]? = u[j]? →
      (step t (j : Int))[j]? = (step u (j : Int))[j]?) :
    ∀ (is : List Int), is.Nodup → ∀ (t : PeakTable) (j : Nat),
      (is.foldl step t)[j]? = if (j : Int) ∈ is then (step t (j : Int))[j]? else t[j]? := by
  intro is
  induction is with
  | nil => intro _ t j; simp
  | cons i rest ih =>
    intro hnd t j
    rw [List.nodup_cons] at hnd
    rw [List.foldl_cons, ih hnd.2 (step t i) j]
    by_cases hj : (j : Int) ∈ rest
    · have hne : (j : Int) ≠ i := fun h => hnd.1 (h ▸ hj)
      rw [if_pos hj, if_pos (List.mem_cons_of_mem _ hj)]
      exact hlocal _ _ j (hframe t i j hne)
    · rw [if_neg hj]
      by_cases hji : (j : Int) = i
      · rw [if_pos (by rw [hji]; exact List.mem_cons_self _ _), ← hji]
      · rw [if_neg (by simp [hj, hji])]
        exact hframe t i j hji

/-! ### Global peak ids -/

theorem mem_numberChannel (channel : Nat) :
    ∀ (ps : List Peak) (next : Nat) (q : Peak), q ∈ numberChannel channel next ps →
      q.channel = channel ∧ next ≤ q.id ∧ q.id < next + ps.length := by
  intro ps
  induction ps with
  | nil => intro next q h; simp [numberChannel] at h
  | cons p ps ih =>
    intro next q h
    simp only [numberChannel, List.mem_cons] at h
    rcases h with h | h
    · subst h
      simp
    · have := ih (next + 1) q h
      simp only [List.length_cons]
      omega

/-- The ids given to the channels from `channel` on start at `offset`, and a peak stored in
slot `k` carries the channel index `channel + k`. -/
theorem mem_assignIdsFrom :
    ∀ (table : PeakTable) (channel offset k : Nat) (q : Peak),
      q ∈ (assignIdsFrom channel offset table).getD k [] →
        q.channel = channel + k ∧ offset ≤ q.id := by
  intro table
  induction table with
  | nil => intro channel offset k q h; simp [assignIdsFrom] at h
  | cons ps rest ih =>
    intro channel offset k q h
    cases k with
    | zero =>
      simp only [assignIdsFrom, List.getD_cons_zero] at h
      have := mem_numberChannel channel ps offset q h
      omega
    | succ k =>
      simp only [assignIdsFrom, List.getD_cons_succ] at h
      have := ih (channel + 1) (offset + ps.length) k q h
      omega

/-- Peaks of two slots of the numbered table with the same id sit in the same slot:
ids are not shared between channels. -/
theorem assignIdsFrom_id_channel :
    ∀ (table : PeakTable) (channel offset k l : Nat) (a b : Peak),
      a ∈ (assignIdsFrom channel offset table).getD k [] →
      b ∈ (assignIdsFrom channel offset table).getD l [] →
      a.id = b.id → k = l := by
  intro table
  induction table with
  | nil => intro channel offset k l a b h; simp [assignIdsFrom] at h
  | cons ps rest ih =>
    intro channel offset k l a b ha hb hid
    cases k with
    | zero =>
      cases l with
      | zero => rfl
      | succ l =>
        simp only [assignIdsFrom, List.getD_cons_zero] at ha
        simp only [assignIdsFrom, List.getD_cons_succ] at hb
        have h1 := mem_numberChannel channel ps offset a ha
        have h2 := mem_assignIdsFrom rest (channel + 1) (offset + ps.length) l b hb
        omega
    | succ k =>
      cases l with
      | zero =>
        simp only [assignIdsFrom, List.getD_cons_zero] at hb
        simp only [assignIdsFrom, List.getD_cons_succ] at ha
        have h1 := mem_numberChannel channel ps offset b hb
        have h2 := mem_assignIdsFrom rest (channel + 1) (offset + ps.length) k a ha
        omega
      | succ l =>
        simp only [assignIdsFrom, List.getD_cons_succ] at ha hb
        have := ih (channel + 1) (offset + ps.length) k l a b ha hb hid
        omega

/-! ### Limb candidates -/

theorem mem_limbCandidates (K : Kernels) (self : HumanPoseEstimation) (pafs : List Mat)
    (peaks : PeakTable) (k : Nat) (limb : Limb) (c : LimbCandidate)
    (h : c ∈ limbCandidates K self pafs peaks k limb) :
    c.type = k ∧ ∃ a ∈ peaks.getD limb.channelA [], ∃ b ∈ peaks.getD limb.channelB [],
      c.peakA = a.id ∧ c.peakB = b.id := by
  simp only [limbCandidates, List.mem_flatMap, List.mem_filterMap, Option.map_eq_some'] at h
  obtain ⟨a, ha, b, hb, sc, _, rfl⟩ := h
  exact ⟨rfl, a, ha, b, hb, rfl, rfl⟩

theorem mem_scoreLimbsFrom (K : Kernels) (self : HumanPoseEstimation) (pafs : List Mat)
    (peaks : PeakTable) :
    ∀ (limbs : List Limb) (k : Nat) (c : LimbCandidate),
      c ∈ scoreLimbsFrom K self pafs peaks k limbs →
        k ≤ c.type ∧ ∃ limb, limbs[c.type - k]? = some limb ∧
          ∃ a ∈ peaks.getD limb.channelA [], ∃ b ∈ peaks.getD limb.channelB [],
            c.peakA = a.id ∧ c.peakB = b.id := by
  intro limbs
  induction limbs with
  | nil => intro k c h; simp [scoreLimbsFrom] at h
  | cons limb rest ih =>
    intro k c h
    simp only [scoreLimbsFrom, List.mem_append] at h
    rcases h with h | h
    · have h1 : c ∈ limbCandidates K self pafs peaks k limb :=
        (List.perm_insertionSort scoreDescending _).mem_iff.mp h
      obtain ⟨ht, hab⟩ := mem_limbCandidates K self pafs peaks k limb c h1
      refine ⟨by omega, limb, ?_, hab⟩
      simp [ht]
    · obtain ⟨hk, l, hl, hab⟩ := ih (k + 1) c h
      refine ⟨by omega, l, ?_, hab⟩
      have : c.type - k = (c.type - (k + 1)) + 1 := by omega
      rw [this, List.getElem?_cons_succ]
      exact hl

/-- Every candidate the limb scorer produces from a numbered peak table is well formed. -/
theorem scoreLimbs_wellFormed (K : Kernels) (self : HumanPoseEstimation) (pafs : List Mat)
    (table : PeakTable) (c : LimbCandidate)
    (h : c ∈ scoreLimbs K self pafs (assignIds table)) : WellFormed K.limbTable c := by
  obtain ⟨_, limb, hl, a, ha, b, hb, hA, hB⟩ :=
    mem_scoreLimbsFrom K self pafs (assignIds table) K.limbTable 0 c h
  intro limb2 hl2 hab
  simp only [Nat.sub_zero] at hl
  rw [hl] at hl2
  cases hl2
  exact assignIdsFrom_id_channel table 0 0 _ _ a b ha hb (by rw [← hA, ← hB, hab])

theorem count_set_le (x y : Option Nat) :
    ∀ (l : List (Option Nat)) (i : Nat),
      (l.set i y).count x ≤ l.count x + (if y = x then 1 else 0) := by
  intro l
  induction l with
  | nil => intro i; simp
  | cons a l ih =>
    intro i
    cases i with
    | zero =>
      simp only [List.set_cons_zero, List.count_cons, beq_iff_eq]
      split <;> split <;> omega
    | succ i =>
      simp only [List.set_cons_succ, List.count_cons]
      have := ih i
      omega

theorem count_unionSlots_le (x : Option Nat) :
    ∀ (xs ys : List (Option Nat)),
      (unionSlots xs ys).count x ≤ xs.count x + ys.count x := by
  intro xs
  induction xs with
  | nil => intro ys; simp [unionSlots]
  | cons a xs ih =>
    intro ys
    cases ys with
    | nil => simp [unionSlots]
    | cons b ys =>
      have := ih ys
      simp only [unionSlots, List.count_cons, beq_iff_eq]
      cases a with
      | none =>
        simp only [Option.none_orElse, HOrElse.hOrElse, OrElse.orElse, Option.orElse]
        split <;> split <;> omega
      | some v =>
        simp only [HOrElse.hOrElse, OrElse.orElse, Option.orElse]
        split <;> split <;> omega

theorem length_unionSlots :
    ∀ (xs ys : List (Option Nat)), xs.length = ys.length →
      (unionSlots xs ys).length = xs.length := by
  intro xs
  induction xs with
  | nil => intro ys h; cases ys with
    | nil => rfl
    | cons b ys => simp at h
  | cons a xs ih =>
    intro ys h
    cases ys with
    | nil => simp at h
    | cons b ys =>
      simp only [List.length_cons, Nat.add_right_cancel_iff] at h
      simp [unionSlots, ih ys h]

theorem occurrences_append (p : Nat) (t u : List Subset) :
    occurrences p (t ++ u) = occurrences p t + occurrences p u := by
  simp [occurrences]

theorem occurrences_set (p : Nat) (new : Subset) :
    ∀ (t : List Subset) (i : Nat) (old : Subset), t[i]? = some old →
      occurrences p (t.set i new) + old.slots.count (some p)
        = occurrences p t + new.slots.count (some p) := by
  intro t
  induction t with
  | nil => intro i old h; simp at h
  | cons a t ih =>
    intro i old h
    cases i with
    | zero =>
      simp only [List.getElem?_cons_zero, Option.some.injEq] at h
      subst h
      simp only [occurrences, List.set_cons_zero, List.map_cons, List.sum_cons]
      omega
    | succ i =>
      simp only [List.getElem?_cons_succ] at h
      have := ih i old h
      simp only [occurrences, List.set_cons_succ, List.map_cons, List.sum_cons] at this ⊢
      omega

theorem occurrences_eraseIdx (p : Nat) :
    ∀ (t : List Subset) (j : Nat) (u : Subset), t[j]? = some u →
      occurrences p (t.eraseIdx j) + u.slots.count (some p) = occurrences p t := by
  intro t
  induction t with
  | nil => intro j u h; simp at h
  | cons a t ih =>
    intro j u h
    cases j with
    | zero =>
      simp only [List.getElem?_cons_zero, Option.some.injEq] at h
      subst h
      simp only [occurrences, List.eraseIdx_cons_zero, List.map_cons, List.sum_cons]
      omega
    | succ j =>
      simp only [List.getElem?_cons_succ] at h
      have := ih j u h
      simp only [occurrences, List.eraseIdx_cons_succ, List.map_cons, List.sum_cons] at this ⊢
      omega

theorem occurrences_filter_le (p : Nat) (f : Subset → Bool) :
    ∀ (t : List Subset), occurrences p (t.filter f) ≤ occurrences p t := by
  intro t
  induction t with
  | nil => simp
  | cons a t ih =>
    simp only [List.filter_cons]
    split
    · simp only [occurrences, List.map_cons, List.sum_cons] at ih ⊢
      omega
    · simp only [occurrences, List.map_cons, List.sum_cons] at ih ⊢
      omega

theorem findHolder_none (p : Nat) :
    ∀ (t : List Subset), findHolder p t = none → occurrences p t = 0 := by
  intro t
  induction t with
  | nil => intro _; rfl
  | cons a t ih =>
    intro h
    simp only [findHolder] at h
    split at h
    · cases h
    · rename_i hmem
      simp only [Option.map_eq_none'] at h
      have h1 := ih h
      have h2 : a.slots.count (some p) = 0 := List.count_eq_zero_of_not_mem hmem
      simp only [occurrences, List.map_cons, List.sum_cons] at h1 ⊢
      omega

/-! ### The subset assembler keeps every peak in at most one slot -/

theorem count_newSubset_le (keypointsNumber : Nat) (limb : Limb) (c : LimbCandidate)
    (confidence : Nat → ℚ) (hwf : c.peakA = c.peakB → limb.channelA = limb.channelB)
    (p : Nat) :
    (newSubset keypointsNumber limb c confidence).slots.count (some p)
      ≤ if p = c.peakA ∨ p = c.peakB then 1 else 0 := by
  have h0 : (List.replicate keypointsNumber (none : Option Nat)).count (some p) = 0 := by
    apply List.count_eq_zero_of_not_mem
    intro h
    have := List.eq_of_mem_replicate h
    cases this
  simp only [newSubset]
  by_cases hab : c.peakA = c.peakB
  · rw [hwf hab, List.set_set]
    have h1 := count_set_le (some p) (some c.peakB)
      (List.replicate keypointsNumber none) limb.channelB
    by_cases hp : p = c.peakB
    · rw [if_pos (Or.inr hp)]
      rw [if_pos (by rw [hp])] at h1
      omega
    · have hne : ¬ (some c.peakB = some p) := fun h => hp (Option.some.inj h).symm
      have hp2 : ¬ (p = c.peakA ∨ p = c.peakB) := by rw [hab]; simp [hp]
      rw [if_neg hp2]
      rw [if_neg hne] at h1
      omega
  · have h1 := count_set_le (some p) (some c.peakA)
      (List.replicate keypointsNumber none) limb.channelA
    have h2 := count_set_le (some p) (some c.peakB)
      ((List.replicate keypointsNumber none).set limb.channelA (some c.peakA)) limb.channelB
    by_cases hpa : p = c.peakA
    · have hneb : ¬ (some c.peakB = some p) :=
        fun h => hab (hpa.symm.trans (Option.some.inj h).symm)
      rw [if_pos (Or.inl hpa)]
      rw [if_pos (by rw [hpa])] at h1
      rw [if_neg hneb] at h2
      omega
    · have hnea : ¬ (some c.peakA = some p) := fun h => hpa (Option.some.inj h).symm
      rw [if_neg hnea] at h1
      by_cases hpb : p = c.peakB
      · rw [if_pos (Or.inr hpb)]
        rw [if_pos (by rw [hpb])] at h2
        omega
      · have hneb : ¬ (some c.peakB = some p) := fun h => hpb (Option.some.inj h).symm
        have hp2 : ¬ (p = c.peakA ∨ p = c.peakB) := by simp [hpa, hpb]
        rw [if_neg hp2]
        rw [if_neg hneb] at h2
        omega

theorem addPeak_unique (t : List Subset) (i slot peak : Nat) (gain : ℚ)
    (hinv : ∀ p, occurrences p t ≤ 1) (habsent : occurrences peak t = 0) (p : Nat) :
    occurrences p (addPeak t i slot peak gain) ≤ 1 := by
  unfold addPeak
  split
  · exact hinv p
  · rename_i s hs
    split
    · have h1 := occurrences_set p
        (Subset.mk (s.slots.set slot (some peak)) (s.totalScore + gain) (s.jointCount + 1))
        t i s hs
      have h2 := count_set_le (some p) (some peak) s.slots slot
      have h3 := hinv p
      simp only at h1
      by_cases hp : p = peak
      · subst hp
        simp only [if_true] at h2
        omega
      · have hne : ¬ (some peak = some p) := fun h => hp (Option.some.inj h).symm
        simp only [hne, if_false] at h2
        omega
    · exact hinv p

theorem mergeSubsets_unique (t : List Subset) (i j : Nat) (hij : i ≠ j)
    (hinv : ∀ p, occurrences p t ≤ 1) (p : Nat) :
    occurrences p (mergeSubsets t i j) ≤ 1 := by
  unfold mergeSubsets
  split
  · rename_i s u hs hu
    split
    · exact hinv p
    · have h1 := occurrences_set p
        (Subset.mk (unionSlots s.slots u.slots) (s.totalScore + u.totalScore)
          (s.jointCount + u.jointCount)) t i s hs
      have hu2 : (t.set i (Subset.mk (unionSlots s.slots u.slots)
          (s.totalScore + u.totalScore) (s.jointCount + u.jointCount)))[j]? = some u := by
        rw [List.getElem?_set_ne hij]
        exact hu
      have h2 := occurrences_eraseIdx p _ j u hu2
      have h3 := count_unionSlots_le (some p) s.slots u.slots
      have h4 := hinv p
      simp only at h1
      omega
  · exact hinv p

/-- One step of the assembler on a well-formed candidate: if no peak is held by more than
one slot of the table before the step, none is after it. -/
theorem assembleStep_unique (keypointsNumber : Nat) (limbTable : List Limb)
    (confidence : Nat → ℚ) (t : List Subset) (c : LimbCandidate)
    (hwf : WellFormed limbTable c) (hinv : ∀ p, occurrences p t ≤ 1) (p : Nat) :
    occurrences p (assembleStep keypointsNumber limbTable confidence t c) ≤ 1 := by
  unfold assembleStep
  split
  · exact hinv p
  · rename_i limb hl
    split
    · rename_i hA hB
      have h1 := count_newSubset_le keypointsNumber limb c confidence (hwf limb hl) p
      have hA0 := findHolder_none c.peakA t hA
      have hB0 := findHolder_none c.peakB t hB
      have h3 := hinv p
      rw [occurrences_append]
      simp only [occurrences, List.map_cons, List.map_nil, List.sum_cons, List.sum_nil,
        Nat.add_zero] at h3 hA0 hB0 ⊢
      by_cases hp : p = c.peakA ∨ p = c.peakB
      · simp only [hp, if_true] at h1
        rcases hp with hp | hp
        · rw [hp] at h1 ⊢
          omega
        · rw [hp] at h1 ⊢
          omega
      · simp only [hp, if_false] at h1
        omega
    · rename_i i hA hB
      exact addPeak_unique t i limb.channelB c.peakB _ hinv (findHolder_none c.peakB t hB) p
    · rename_i j hA hB
      exact addPeak_unique t j limb.channelA c.peakA _ hinv (findHolder_none c.peakA t hA) p
    · rename_i i j hA hB
      split
      · exact hinv p
      · rename_i hij
        exact mergeSubsets_unique t i j hij hinv p

/-- A property of subsets that new subsets have and that adding a peak and merging keep
holds for every subset of the table after a step if it did before. -/
theorem assembleStep_all (P : Subset → Prop) (keypointsNumber : Nat) (limbTable : List Limb)
    (confidence : Nat → ℚ)
    (hnew : ∀ (limb : Limb) (c : LimbCandidate), P (newSubset keypointsNumber limb c confidence))
    (hadd : ∀ (s : Subset) (slot peak : Nat) (gain : ℚ), P s →
      P (Subset.mk (s.slots.set slot (some peak)) (s.totalScore + gain) (s.jointCount + 1)))
    (hmerge : ∀ (s u : Subset), P s → P u →
      P (Subset.mk (unionSlots s.slots u.slots) (s.totalScore + u.totalScore)
        (s.jointCount + u.jointCount)))
    (t : List Subset) (c : LimbCandidate) (hinv : ∀ s ∈ t, P s) :
    ∀ s ∈ assembleStep keypointsNumber limbTable confidence t c, P s := by
  have haddPeak : ∀ (i slot peak : Nat) (gain : ℚ), ∀ s ∈ addPeak t i slot peak gain, P s := by
    intro i slot peak gain s hs
    unfold addPeak at hs
    split at hs
    · exact hinv s hs
    · rename_i old hold
      split at hs
      · rcases List.mem_or_eq_of_mem_set hs with h | h
        · exact hinv s h
        · subst h
          exact hadd old slot peak gain (hinv old (List.getElem?_mem hold))
      · exact hinv s hs
  intro s hs
  unfold assembleStep at hs
  split at hs
  · exact hinv s hs
  · split at hs
    · rcases List.mem_append.mp hs with h | h
      · exact hinv s h
      · simp only [List.mem_singleton] at h
        subst h
        exact hnew _ _
    · exact haddPeak _ _ _ _ s hs
    · exact haddPeak _ _ _ _ s hs
    · split at hs
      · exact hinv s hs
      · unfold mergeSubsets at hs
        split at hs
        · rename_i a b ha hb
          split at hs
          · exact hinv s hs
          · rcases List.mem_or_eq_of_mem_set (List.mem_of_mem_eraseIdx hs) with h | h
            · exact hinv s h
            · subst h
              exact hmerge a b (hinv a (List.getElem?_mem ha)) (hinv b (List.getElem?_mem hb))
        · exact hinv s hs

/-- Every subset the assembler builds has one slot per keypoint type and a joint count of
at least two. -/
theorem assemble_shape (keypointsNumber : Nat) (limbTable : List Limb)
    (confidence : Nat → ℚ) :
    ∀ (candidates : List LimbCandidate) (t : List Subset),
      (∀ s ∈ t, s.slots.length = keypointsNumber ∧ 2 ≤ s.jointCount) →
      ∀ s ∈ candidates.foldl (assembleStep keypointsNumber limbTable confidence) t,
        s.slots.length = keypointsNumber ∧ 2 ≤ s.jointCount := by
  intro candidates
  induction candidates with
  | nil => intro t hinv s hs; exact hinv s hs
  | cons c rest ih =>
    intro t hinv
    rw [List.foldl_cons]
    apply ih
    apply assembleStep_all (fun s => s.slots.length = keypointsNumber ∧ 2 ≤ s.jointCount)
      keypointsNumber limbTable confidence _ _ _ t c hinv
    · intro limb c
      simp [newSubset]
    · intro s slot peak gain hs
      simp only [List.length_set]
      exact ⟨hs.1, by omega⟩
    · intro s u hs hu
      simp only
      rw [length_unionSlots _ _ (by rw [hs.1, hu.1])]
      exact ⟨hs.1, by omega⟩

theorem assemble_unique (keypointsNumber : Nat) (limbTable : List Limb)
    (confidence : Nat → ℚ) :
    ∀ (candidates : List LimbCandidate) (t : List Subset),
      (∀ c ∈ candidates, WellFormed limbTable c) → (∀ p, occurrences p t ≤ 1) →
      ∀ p, occurrences p
        (candidates.foldl (assembleStep keypointsNumber limbTable confidence) t) ≤ 1 := by
  intro candidates
  induction candidates with
  | nil => intro t _ hinv p; exact hinv p
  | cons c rest ih =>
    intro t hwf hinv p
    rw [List.foldl_cons]
    exact ih _ (fun d hd => hwf d (List.mem_cons_of_mem _ hd))
      (assembleStep_unique keypointsNumber limbTable confidence t c
        (hwf c (List.mem_cons_self _ _)) hinv) p

/-- The assembler on small tables (slots and joint counts of the result).  First list:
a new subset, a candidate turned down because its slot is taken, a peak added, a second
new subset.  Second list: two subsets that are not merged, as they hold different peaks
in slot 1.  Third list: two subsets merged into one. -/
theorem assemble_examples :
    (assemble 3 [Limb.mk 0 1 0 1, Limb.mk 1 2 2 3] (fun _ => 1)
        [LimbCandidate.mk 0 0 1 (9 / 10), LimbCandidate.mk 0 0 2 (8 / 10),
         LimbCandidate.mk 1 1 4 (9 / 10), LimbCandidate.mk 1 2 3 (7 / 10)]).map
        (fun s => (s.slots, s.jointCount))
      = [([some 0, some 1, some 4], 3), ([none, some 2, some 3], 2)]
    ∧ (assemble 3 [Limb.mk 0 1 0 1, Limb.mk 1 2 2 3] (fun _ => 1)
        [LimbCandidate.mk 0 0 1 (9 / 10), LimbCandidate.mk 1 2 3 (7 / 10),
         LimbCandidate.mk 1 1 3 (6 / 10)]).map
        (fun s => (s.slots, s.jointCount))
      = [([some 0, some 1, none], 2), ([none, some 2, some 3], 2)]
    ∧ (assemble 4 [Limb.mk 0 1 0 1, Limb.mk 2 3 2 3, Limb.mk 1 2 4 5] (fun _ => 1)
        [LimbCandidate.mk 0 0 1 (9 / 10), LimbCandidate.mk 1 2 3 (7 / 10),
         LimbCandidate.mk 2 1 2 (7 / 10)]).map
        (fun s => (s.slots, s.jointCount))
      = [([some 0, some 1, some 2, some 3], 4)] := by
  refine ⟨by decide, by decide, by decide⟩

/-! ### From counts to positions -/

theorem two_le_count_of_two_positions (x : Option Nat) :
    ∀ (l : List (Option Nat)) (k m : Nat), k ≠ m → l[k]? = some x → l[m]? = some x →
      2 ≤ l.count x := by
  intro l
  induction l with
  | nil => intro k m _ h; simp at h
  | cons a l ih =>
    intro k m hkm hk hm
    cases k with
    | zero =>
      cases m with
      | zero => exact absurd rfl hkm
      | succ m =>
        simp only [List.getElem?_cons_zero, Option.some.injEq] at hk
        simp only [List.getElem?_cons_succ] at hm
        have h1 : 0 < l.count x := List.count_pos_iff.mpr (List.getElem?_mem hm)
        subst hk
        simp only [List.count_cons_self]
        omega
    | succ k =>
      cases m with
      | zero =>
        simp only [List.getElem?_cons_zero, Option.some.injEq] at hm
        simp only [List.getElem?_cons_succ] at hk
        have h1 : 0 < l.count x := List.count_pos_iff.mpr (List.getElem?_mem hk)
        subst hm
        simp only [List.count_cons_self]
        omega
      | succ m =>
        simp only [List.getElem?_cons_succ] at hk hm
        have h1 := ih k m (by omega) hk hm
        have h2 : l.count x ≤ (a :: l).count x := by
          simp only [List.count_cons]
          omega
        omega

theorem count_le_occurrences (p : Nat) :
    ∀ (t : List Subset) (i : Nat) (s : Subset), t[i]? = some s →
      s.slots.count (some p) ≤ occurrences p t := by
  intro t
  induction t with
  | nil => intro i s h; simp at h
  | cons a t ih =>
    intro i s h
    cases i with
    | zero =>
      simp only [List.getElem?_cons_zero, Option.some.injEq] at h
      subst h
      simp only [occurrences, List.map_cons, List.sum_cons]
      omega
    | succ i =>
      simp only [List.getElem?_cons_succ] at h
      have := ih i s h
      simp only [occurrences, List.map_cons, List.sum_cons] at this ⊢
      omega

theorem count_add_count_le_occurrences (p : Nat) :
    ∀ (t : List Subset) (i j : Nat) (s u : Subset), i ≠ j → t[i]? = some s →
      t[j]? = some u →
      s.slots.count (some p) + u.slots.count (some p) ≤ occurrences p t := by
  intro t
  induction t with
  | nil => intro i j s u _ h; simp at h
  | cons a t ih =>
    intro i j s u hij hi hj
    cases i with
    | zero =>
      cases j with
      | zero => exact absurd rfl hij
      | succ j =>
        simp only [List.getElem?_cons_zero, Option.some.injEq] at hi
        simp only [List.getElem?_cons_succ] at hj
        have := count_le_occurrences p t j u hj
        subst hi
        simp only [occurrences, List.map_cons, List.sum_cons] at this ⊢
        omega
    | succ i =>
      cases j with
      | zero =>
        simp only [List.getElem?_cons_zero, Option.some.injEq] at hj
        simp only [List.getElem?_cons_succ] at hi
        have := count_le_occurrences p t i s hi
        subst hj
        simp only [occurrences, List.map_cons, List.sum_cons] at this ⊢
        omega
      | succ j =>
        simp only [List.getElem?_cons_succ] at hi hj
        have := ih i j s u (by omega) hi hj
        simp only [occurrences, List.map_cons, List.sum_cons] at this ⊢
        omega

/-- When no more than one slot of the table holds peak `p`, two sightings of `p` are one
sighting: same subset, same slot. -/
theorem position_unique_of_occurrences_le_one (p : Nat) (t : List Subset)
    (h : occurrences p t ≤ 1) (i j k m : Nat) (s u : Subset)
    (hi : t[i]? = some s) (hj : t[j]? = some u)
    (hk : s.slots[k]? = some (some p)) (hm : u.slots[m]? = some (some p)) :
    i = j ∧ k = m := by
  have hs : 0 < s.slots.count (some p) := List.count_pos_iff.mpr (List.getElem?_mem hk)
  have hu : 0 < u.slots.count (some p) := List.count_pos_iff.mpr (List.getElem?_mem hm)
  have hij : i = j := by
    by_contra hne
    have := count_add_count_le_occurrences p t i j s u hne hi hj
    omega
  subst hij
  rw [hi] at hj
  cases hj
  refine ⟨rfl, ?_⟩
  by_contra hne
  have h1 := two_le_count_of_two_positions (some p) s.slots k m hne hk hm
  have h2 := count_le_occurrences p t i s hi
  omega

/-! ### The peak stage does not depend on the schedule -/

theorem findPeaks_frame (detect : Mat → ℚ → ℚ → List Peak) (hm : List Mat) (d c : ℚ)
    (t : PeakTable) (i : Int) (j : Nat) (hji : (j : Int) ≠ i) :
    (findPeaks detect hm d t i c)[j]? = t[j]? := by
  unfold findPeaks
  by_cases hi : 0 ≤ i
  · have hne : i.toNat ≠ j := by omega
    simp only [if_pos hi]
    rw [List.getElem?_set_ne hne]
  · simp only [if_neg hi]

theorem findPeaks_local (detect : Mat → ℚ → ℚ → List Peak) (hm : List Mat) (d c : ℚ)
    (t u : PeakTable) (j : Nat) (h : t[j]? = u[j]?) :
    (findPeaks detect hm d t (j : Int) c)[j]? = (findPeaks detect hm d u (j : Int) c)[j]? := by
  unfold findPeaks
  have h0 : (0 : Int) ≤ (j : Int) := by omega
  simp only [if_pos h0, Int.toNat_ofNat, List.getElem?_set, if_true]
  by_cases hj : j < t.length
  · have hu : j < u.length := by
      by_contra hn
      rw [List.getElem?_eq_getElem hj, List.getElem?_eq_none (by omega)] at h
      cases h
    simp only [hj, hu, if_true]
  · have hu : ¬ j < u.length := by
      intro hn
      rw [List.getElem?_eq_none (by omega), List.getElem?_eq_getElem hn] at h
      cases h
    simp only [hj, hu, if_false]

theorem runSchedule_eq_foldl (fp : FindPeaksFn) (body : FindPeaksBody) :
    ∀ (schedule : List Range) (table : PeakTable),
      runSchedule fp body schedule table
        = (schedule.flatMap Range.indices).foldl
            (fun t i => fp body.heatMaps body.minPeaksDistance t i body.confidenceThreshold)
            table := by
  intro schedule
  induction schedule with
  | nil => intro table; rfl
  | cons r rest ih =>
    intro table
    have h := ih (FindPeaksBody.runTable fp body r table)
    simp only [runSchedule, List.foldl_cons, List.flatMap_cons, List.foldl_append] at h ⊢
    rw [h, runTable_eq_foldl]

/-- Two schedules that cover the same channels leave the same peak table behind. -/
theorem runSchedule_findPeaks_schedule_free (detect : Mat → ℚ → ℚ → List Peak)
    (body : FindPeaksBody) (n : Nat) (schedule schedule2 : List Range)
    (h1 : coversChannels schedule n) (h2 : coversChannels schedule2 n) (table : PeakTable) :
    runSchedule (findPeaks detect) body schedule table
      = runSchedule (findPeaks detect) body schedule2 table := by
  have hnd : ((List.range n).map Int.ofNat).Nodup :=
    (List.nodup_range n).map (fun a b h => Int.ofNat.inj h)
  have key : ∀ (sch : List Range), coversChannels sch n → ∀ j : Nat,
      (runSchedule (findPeaks detect) body sch table)[j]?
        = if (j : Int) ∈ (List.range n).map Int.ofNat then
            (findPeaks detect body.heatMaps body.minPeaksDistance table (j : Int)
              body.confidenceThreshold)[j]?
          else table[j]? := by
    intro sch hc j
    rw [runSchedule_eq_foldl,
      foldl_local_getElem?
        (fun t i => findPeaks detect body.heatMaps body.minPeaksDistance t i
          body.confidenceThreshold)
        (fun t i j h => findPeaks_frame detect _ _ _ t i j h)
        (fun t u j h => findPeaks_local detect _ _ _ t u j h)
        _ (hc.nodup_iff.mpr hnd) table j]
    simp only [hc.mem_iff]
  apply List.ext_getElem?
  intro j
  rw [key schedule h1 j, key schedule2 h2 j]

theorem filter_sublist_filter {α : Type} (f g : α → Bool)
    (h : ∀ a, f a = true → g a = true) :
    ∀ (l : List α), (l.filter f).Sublist (l.filter g) := by
  intro l
  induction l with
  | nil => simp
  | cons a l ih =>
    simp only [List.filter_cons]
    by_cases hf : f a = true
    · rw [if_pos hf, if_pos (h a hf)]
      exact ih.cons₂ a
    · rw [if_neg hf]
      by_cases hg : g a = true
      · rw [if_pos hg]
        exact ih.cons a
      · rw [if_neg hg]
        exact ih

/-! ### The constants a stage reads -/

theorem scoreLimbs_congr (K : Kernels) (a b : HumanPoseEstimation) (pafs : List Mat)
    (peaks : PeakTable) (h1 : a.midPointsScoreThreshold = b.midPointsScoreThreshold)
    (h2 : a.foundMidPointsRatioThreshold = b.foundMidPointsRatioThreshold) :
    scoreLimbs K a pafs peaks = scoreLimbs K b pafs peaks := by
  unfold scoreLimbs
  generalize (0 : Nat) = k
  induction K.limbTable generalizing k with
  | nil => rfl
  | cons limb rest ih =>
    simp only [scoreLimbsFrom, limbCandidates, h1, h2, ih]

theorem materialize_congr (K : Kernels) (a b : HumanPoseEstimation)
    (h1 : a.upsampleRatio = b.upsampleRatio) (h2 : a.stride = b.stride) :
    materialize K a = materialize K b := by
  funext peaks s
  simp only [materialize, h1, h2]

theorem acceptedSubsets_withMinJoints (K : Kernels) (self : HumanPoseEstimation)
    (schedule : List Range) (heatMaps pafs : List Mat) (T : Int) :
    acceptedSubsets K (self.withMinJoints T) schedule heatMaps pafs
      = (assemble self.keypointsNumber K.limbTable
          (peakConfidence (detectPeaks K self schedule heatMaps))
          (scoreLimbs K self pafs (detectPeaks K self schedule heatMaps))).filter
        (Subset.accepted T self.minSubsetScore) := by
  have h1 : detectPeaks K (self.withMinJoints T) schedule heatMaps
      = detectPeaks K self schedule heatMaps := rfl
  have h2 : scoreLimbs K (self.withMinJoints T) pafs (detectPeaks K self schedule heatMaps)
      = scoreLimbs K self pafs (detectPeaks K self schedule heatMaps) :=
    scoreLimbs_congr K _ _ pafs _ rfl rfl
  unfold acceptedSubsets
  rw [h1, h2]
  rfl

/-! ### The decode of the sample heat maps -/

/-- C1.  For every pair of heat map and part-affinity tensor lists (and every schedule of
the peak stage), the poses `extractPoses` returns are the materialised accepted subsets;
each has one slot per keypoint type, a slot holds at most one peak, and every peak is held
by at most one slot of at most one returned pose: the slots holding it number at most one,
and two sightings of a peak among the returned poses are in the same pose and slot. -/
theorem extractPoses_peak_in_one_slot (K : Kernels) (self : HumanPoseEstimation)
    (schedule : List Range) (heatMaps pafs : List Mat) :
    (self.extractPoses K schedule heatMaps pafs).1
        = (acceptedSubsets K self schedule heatMaps pafs).map
            (materialize K self (detectPeaks K self schedule heatMaps))
    ∧ (∀ pose ∈ (self.extractPoses K schedule heatMaps pafs).1,
        pose.keypoints.length = self.keypointsNumber)
    ∧ (∀ s ∈ acceptedSubsets K self schedule heatMaps pafs,
        s.slots.length = self.keypointsNumber
        ∧ ∀ (k p q : Nat), s.slots[k]? = some (some p) → s.slots[k]? = some (some q) → p = q)
    ∧ (∀ p : Nat, occurrences p (acceptedSubsets K self schedule heatMaps pafs) ≤ 1)
    ∧ (∀ (p i j k m : Nat) (s u : Subset),
        (acceptedSubsets K self schedule heatMaps pafs)[i]? = some s →
        (acceptedSubsets K self schedule heatMaps pafs)[j]? = some u →
        s.slots[k]? = some (some p) → u.slots[m]? = some (some p) → i = j ∧ k = m) := by
  have hlen : ∀ s ∈ acceptedSubsets K self schedule heatMaps pafs,
      s.slots.length = self.keypointsNumber := by
    intro s hs
    unfold acceptedSubsets at hs
    exact (assemble_shape self.keypointsNumber K.limbTable _ _ []
      (fun s hs => by simp at hs) s (List.mem_of_mem_filter hs)).1
  have hocc : ∀ p : Nat, occurrences p (acceptedSubsets K self schedule heatMaps pafs) ≤ 1 := by
    intro p
    unfold acceptedSubsets
    refine le_trans (occurrences_filter_le p _ _) ?_
    apply assemble_unique self.keypointsNumber K.limbTable _ _ []
    · intro c hc
      unfold detectPeaks at hc
      exact scoreLimbs_wellFormed K self pafs _ c hc
    · intro q
      simp [occurrences]
  refine ⟨rfl, ?_, ?_, hocc, ?_⟩
  · intro pose hpose
    simp only [HumanPoseEstimation.extractPoses, List.mem_map] at hpose
    obtain ⟨s, hs, rfl⟩ := hpose
    simp only [materialize, List.length_map]
    exact hlen s hs
  · intro s hs
    refine ⟨hlen s hs, ?_⟩
    intro k p q hp hq
    rw [hp] at hq
    simpa using hq
  · intro p i j k m s u hi hj hk hm
    exact position_unique_of_occurrences_le_one p _ (hocc p) i j k m s u hi hj hk hm

/-- C2.  For every input and every minimum joint count `T`, every pose the decode returns
materialises an accepted subset whose joint count is at least `T` and whose average score
`totalScore / jointCount` is at least the minimum subset score (the joint count is at
least two, so the average is a quotient by a positive number); the poses returned for
threshold `T + 1` are, in order, among those returned for threshold `T`. -/
theorem extractPoses_filter_monotone (K : Kernels) (self : HumanPoseEstimation)
    (schedule : List Range) (heatMaps pafs : List Mat) (T : Int) :
    (∀ pose ∈ ((self.withMinJoints T).extractPoses K schedule heatMaps pafs).1,
        ∃ s ∈ acceptedSubsets K (self.withMinJoints T) schedule heatMaps pafs,
          pose = materialize K (self.withMinJoints T)
            (detectPeaks K (self.withMinJoints T) schedule heatMaps) s
          ∧ T ≤ s.jointCount
          ∧ self.minSubsetScore ≤ s.totalScore / (s.jointCount : ℚ)
          ∧ 2 ≤ s.jointCount)
    ∧ (((self.withMinJoints (T + 1)).extractPoses K schedule heatMaps pafs).1).Sublist
        ((self.withMinJoints T).extractPoses K schedule heatMaps pafs).1
    ∧ (∀ pose ∈ ((self.withMinJoints (T + 1)).extractPoses K schedule heatMaps pafs).1,
        pose ∈ ((self.withMinJoints T).extractPoses K schedule heatMaps pafs).1) := by
  have hmat : ∀ U : Int, materialize K (self.withMinJoints U) = materialize K self :=
    fun U => materialize_congr K _ _ rfl rfl
  have hdet : ∀ U : Int, detectPeaks K (self.withMinJoints U) schedule heatMaps
      = detectPeaks K self schedule heatMaps := fun _ => rfl
  have hsub : (((self.withMinJoints (T + 1)).extractPoses K schedule heatMaps pafs).1).Sublist
      ((self.withMinJoints T).extractPoses K schedule heatMaps pafs).1 := by
    simp only [HumanPoseEstimation.extractPoses, acceptedSubsets_withMinJoints, hmat, hdet]
    apply List.Sublist.map
    apply filter_sublist_filter
    intro s hs
    simp only [Subset.accepted, Bool.not_eq_true', Bool.or_eq_false_iff,
      decide_eq_false_iff_not, not_lt] at hs ⊢
    exact ⟨by omega, hs.2⟩
  refine ⟨?_, hsub, fun pose h => hsub.subset h⟩
  intro pose hpose
  simp only [HumanPoseEstimation.extractPoses, List.mem_map] at hpose
  obtain ⟨s, hs, rfl⟩ := hpose
  refine ⟨s, hs, rfl, ?_⟩
  rw [acceptedSubsets_withMinJoints] at hs
  have hacc := (List.mem_filter.mp hs).2
  have hshape := assemble_shape self.keypointsNumber K.limbTable _ _ []
    (fun s hs => by simp at hs) s (List.mem_filter.mp hs).1
  simp only [Subset.accepted, Bool.not_eq_true', Bool.or_eq_false_iff,
    decide_eq_false_iff_not, not_lt] at hacc
  exact ⟨hacc.1, hacc.2, hshape.2⟩

/-- C3.  Decoding is deterministic.  Two instances with the same configuration constants
and number of keypoints, given the same heat maps and part affinity fields, return the
same sequence of poses, whatever their result buffers and frame sizes and whichever
schedules (each covering all channels) their peak stages run under; a decode leaves its
instance as it was, so a second call on it returns what the first returned. -/
theorem extractPoses_deterministic (K : Kernels) (self other : HumanPoseEstimation)
    (schedule schedule2 : List Range) (heatMaps pafs : List Mat)
    (hconst : self.constants = other.constants)
    (hkeys : self.keypointsNumber = other.keypointsNumber)
    (hcov : coversChannels schedule heatMaps.length)
    (hcov2 : coversChannels schedule2 heatMaps.length) :
    (self.extractPoses K schedule heatMaps pafs).1
        = (other.extractPoses K schedule2 heatMaps pafs).1
    ∧ (self.extractPoses K schedule heatMaps pafs).2 = self
    ∧ ((self.extractPoses K schedule heatMaps pafs).2.extractPoses K schedule2
          heatMaps pafs).1
        = (self.extractPoses K schedule heatMaps pafs).1 := by
  have hpeaks : ∀ (a b : HumanPoseEstimation), a.constants = b.constants →
      detectPeaks K a schedule heatMaps = detectPeaks K b schedule2 heatMaps := by
    intro a b hab
    have h1 := congrArg DecodingConstants.minPeaksDistance hab
    have h2 := congrArg DecodingConstants.confidenceThreshold hab
    simp only [HumanPoseEstimation.constants] at h1 h2
    unfold detectPeaks
    rw [h1, h2]
    rw [runSchedule_findPeaks_schedule_free K.detect _ heatMaps.length schedule schedule2
      hcov hcov2]
  have hall : ∀ (a b : HumanPoseEstimation), a.constants = b.constants →
      a.keypointsNumber = b.keypointsNumber →
      (a.extractPoses K schedule heatMaps pafs).1
        = (b.extractPoses K schedule2 heatMaps pafs).1 := by
    intro a b hab hk
    have hp := hpeaks a b hab
    have h1 := congrArg DecodingConstants.midPointsScoreThreshold hab
    have h2 := congrArg DecodingConstants.foundMidPointsRatioThreshold hab
    have h3 := congrArg DecodingConstants.minSubsetScore hab
    have h4 := congrArg DecodingConstants.minJointsNumber hab
    have h5 := congrArg DecodingConstants.upsampleRatio hab
    have h6 := congrArg DecodingConstants.stride hab
    simp only [HumanPoseEstimation.constants] at h1 h2 h3 h4 h5 h6
    have hs : scoreLimbs K a pafs (detectPeaks K b schedule2 heatMaps)
        = scoreLimbs K b pafs (detectPeaks K b schedule2 heatMaps) :=
      scoreLimbs_congr K a b pafs _ h1 h2
    simp only [HumanPoseEstimation.extractPoses, acceptedSubsets, hp, hk, h3, h4, hs,
      materialize_congr K a b h5 h6]
  exact ⟨hall self other hconst hkeys, rfl, (hall self self rfl rfl).symm⟩

/-- C3 at an instance: a fresh object run on one range task and a used object run on two
range tasks, the later channels first, have the same constants, and decode the sample heat maps to
the same poses. -/
theorem extractPoses_deterministic_witness :
    (HumanPoseEstimation.new.constants = sampleUsedInstance.constants
      ∧ HumanPoseEstimation.new.keypointsNumber = sampleUsedInstance.keypointsNumber
      ∧ coversChannels [Range.mk 0 3] sampleHeatMaps.length
      ∧ coversChannels [Range.mk 2 3, Range.mk 0 2] sampleHeatMaps.length)
    ∧ ((HumanPoseEstimation.new.extractPoses sampleKernels [Range.mk 0 3] sampleHeatMaps
          []).1
        = (sampleUsedInstance.extractPoses sampleKernels [Range.mk 2 3, Range.mk 0 2]
            sampleHeatMaps []).1
      ∧ (HumanPoseEstimation.new.extractPoses sampleKernels [Range.mk 0 3] sampleHeatMaps
          []).2 = HumanPoseEstimation.new
      ∧ ((HumanPoseEstimation.new.extractPoses sampleKernels [Range.mk 0 3] sampleHeatMaps
            []).2.extractPoses sampleKernels [Range.mk 2 3, Range.mk 0 2] sampleHeatMaps
            []).1
          = (HumanPoseEstimation.new.extractPoses sampleKernels [Range.mk 0 3]
              sampleHeatMaps []).1) :=
  ⟨⟨rfl, rfl, by decide, by decide⟩,
    extractPoses_deterministic sampleKernels HumanPoseEstimation.new sampleUsedInstance
      [Range.mk 0 3] [Range.mk 2 3, Range.mk 0 2] sampleHeatMaps [] rfl rfl
      (by decide) (by decide)⟩

/-! ### Claims on `FindPeaksBody` -/

/-- C7.  For every range, `FindPeaksBody::operator()` calls `findPeaks` once for each
channel index from `start` up to but excluding `end`, in ascending order, and for no
other index (no call when `end <= start`); every call receives the heat maps, the minimum
peak distance and the confidence threshold given to the constructor, whatever the in-class
default `0.5` of the member; the table is the one these calls leave behind, one after the
other. -/
theorem findPeaksBody_operator_calls (findPeaks : FindPeaksFn) (heatMaps : List Mat)
    (minPeaksDistance confidenceThreshold : ℚ) (range : Range) (w : PeakWorld) :
    (FindPeaksBody.operator findPeaks
        (FindPeaksBody.new heatMaps minPeaksDistance confidenceThreshold) range w).calls
      = w.calls ++ range.indices.map
          (fun i => FindPeaksCall.mk heatMaps minPeaksDistance i confidenceThreshold)
    ∧ range.indices.Pairwise (· < ·)
    ∧ (∀ i : Int, i ∈ range.indices ↔ range.start ≤ i ∧ i < range.stop)
    ∧ (range.stop ≤ range.start →
        FindPeaksBody.operator findPeaks
          (FindPeaksBody.new heatMaps minPeaksDistance confidenceThreshold) range w = w)
    ∧ (FindPeaksBody.operator findPeaks
        (FindPeaksBody.new heatMaps minPeaksDistance confidenceThreshold) range
        w).peaksFromHeatMap
      = range.indices.foldl
          (fun t i => findPeaks heatMaps minPeaksDistance t i confidenceThreshold)
          w.peaksFromHeatMap := by
  refine ⟨?_, indices_pairwise range, mem_indices range, ?_, ?_⟩
  · rw [operator_eq_foldl, foldl_callFindPeaks_calls]
    rfl
  · intro h
    have h0 : (range.stop - range.start).toNat = 0 := by omega
    rw [operator_eq_foldl]
    simp [Range.indices, h0]
  · rw [operator_eq_foldl, foldl_callFindPeaks_table]
    rfl

/-- C4, the claim as worded fails in its "in either order" part.  The claim assumes of
`findPeaks` only that the call for channel `i` writes slot `i` of the table and no other.
`neighbourFindPeaks` does so (every other slot and the length of the table are as before)
but looks at the table while doing it; running the body over channels 0 and 1 in one go
then differs from running channel 1 first and channel 0 after it. -/
theorem findPeaksBody_split_needs_local_reads :
    (∀ (hm : List Mat) (d c : ℚ) (t : PeakTable) (i : Int) (j : Nat), (j : Int) ≠ i →
        (neighbourFindPeaks hm d t i c)[j]? = t[j]?)
    ∧ (∀ (hm : List Mat) (d c : ℚ) (t : PeakTable) (i : Int),
        (neighbourFindPeaks hm d t i c).length = t.length)
    ∧ (0 : Int) ≤ 1 ∧ (1 : Int) ≤ 2
    ∧ FindPeaksBody.runTable neighbourFindPeaks (FindPeaksBody.new [] 3 (1 / 2))
          (Range.mk 0 2) [[], []]
        ≠ FindPeaksBody.runTable neighbourFindPeaks (FindPeaksBody.new [] 3 (1 / 2))
            (Range.mk 0 1)
            (FindPeaksBody.runTable neighbourFindPeaks (FindPeaksBody.new [] 3 (1 / 2))
              (Range.mk 1 2) [[], []]) := by
  refine ⟨?_, ?_, by decide, by decide, by decide⟩
  · intro hm d c t i j hji
    unfold neighbourFindPeaks
    by_cases hi : 0 ≤ i
    · have hne : i.toNat ≠ j := by omega
      simp only [if_pos hi]
      rw [List.getElem?_set_ne hne]
    · simp only [if_neg hi]
  · intro hm d c t i
    unfold neighbourFindPeaks
    by_cases hi : 0 ≤ i
    · simp only [if_pos hi, List.length_set]
    · simp only [if_neg hi]

/-- C4, amended.  Assume that `findPeaks`, called for channel `i`, writes slot `i` of the
peaks table only.  Then for `a <= b <= c` running the body over `[a, c)` gives the table
obtained by running it over `[a, b)` and then over `[b, c)`, and leaves every slot of a
channel outside `[a, c)` as it was.  If moreover what `findPeaks` writes into slot `i` does
not depend on the other slots of the table (it reads no other channel's slot), running the
body over `[b, c)` first and over `[a, b)` after it gives that same table as well. -/
theorem findPeaksBody_range_split (findPeaks : FindPeaksFn) (self : FindPeaksBody)
    (hframe : ∀ (t : PeakTable) (i : Int) (j : Nat), (j : Int) ≠ i →
      (findPeaks self.heatMaps self.minPeaksDistance t i self.confidenceThreshold)[j]?
        = t[j]?)
    (a b c : Int) (hab : a ≤ b) (hbc : b ≤ c) (table : PeakTable) :
    FindPeaksBody.runTable findPeaks self (Range.mk a c) table
        = FindPeaksBody.runTable findPeaks self (Range.mk b c)
            (FindPeaksBody.runTable findPeaks self (Range.mk a b) table)
    ∧ (∀ j : Nat, ¬ (a ≤ (j : Int) ∧ (j : Int) < c) →
        (FindPeaksBody.runTable findPeaks self (Range.mk a c) table)[j]? = table[j]?)
    ∧ ((∀ (t u : PeakTable) (j : Nat), t[j]? = u[j]? →
          (findPeaks self.heatMaps self.minPeaksDistance t (j : Int)
              self.confidenceThreshold)[j]?
            = (findPeaks self.heatMaps self.minPeaksDistance u (j : Int)
                self.confidenceThreshold)[j]?) →
        FindPeaksBody.runTable findPeaks self (Range.mk a c) table
          = FindPeaksBody.runTable findPeaks self (Range.mk a b)
              (FindPeaksBody.runTable findPeaks self (Range.mk b c) table)) := by
  refine ⟨runTable_split_in_order findPeaks self a b c hab hbc table, ?_, ?_⟩
  · intro j hj
    rw [runTable_eq_foldl]
    apply foldl_frame_getElem? _ hframe j
    intro hmem
    exact hj ((mem_indices (Range.mk a c) (j : Int)).mp hmem)
  · intro hlocal
    have key : ∀ (r : Range) (t : PeakTable) (j : Nat),
        (FindPeaksBody.runTable findPeaks self r t)[j]?
          = if r.start ≤ (j : Int) ∧ (j : Int) < r.stop then
              (findPeaks self.heatMaps self.minPeaksDistance t (j : Int)
                self.confidenceThreshold)[j]?
            else t[j]? := by
      intro r t j
      rw [runTable_eq_foldl,
        foldl_local_getElem? (fun t i => findPeaks self.heatMaps self.minPeaksDistance t i
          self.confidenceThreshold) hframe hlocal r.indices (indices_nodup r) t j]
      simp only [mem_indices]
    apply List.ext_getElem?
    intro j
    rw [key (Range.mk a c) table j, key (Range.mk a b) _ j, key (Range.mk b c) table j]
    simp only []
    by_cases h1 : a ≤ (j : Int) ∧ (j : Int) < b
    · have h2 : ¬ (b ≤ (j : Int) ∧ (j : Int) < c) := by omega
      have h3 : a ≤ (j : Int) ∧ (j : Int) < c := by omega
      rw [if_pos h3, if_pos h1]
      apply hlocal
      rw [key (Range.mk b c) table j]
      simp only []
      rw [if_neg h2]
    · by_cases h2 : b ≤ (j : Int) ∧ (j : Int) < c
      · have h3 : a ≤ (j : Int) ∧ (j : Int) < c := by omega
        rw [if_pos h3, if_neg h1, if_pos h2]
      · have h3 : ¬ (a ≤ (j : Int) ∧ (j : Int) < c) := by omega
        rw [if_neg h3, if_neg h1, if_neg h2]

/-- C4 at an instance: the `findPeaks` of the decode, which stores in slot `i` the peaks
detected on heat map `i`, writes its own slot only; on the sample heat maps, channels 0
and 1 in one go and channel 0 then channel 1 leave the same table, slots from 2 on are
untouched, and, as this `findPeaks` reads no other slot, channel 1 then channel 0 leaves
that table too. -/
theorem findPeaksBody_range_split_witness :
    ((∀ (t : PeakTable) (i : Int) (j : Nat), (j : Int) ≠ i →
        (findPeaks sampleDetect (FindPeaksBody.new sampleHeatMaps 3 (1 / 2)).heatMaps
            (FindPeaksBody.new sampleHeatMaps 3 (1 / 2)).minPeaksDistance t i
            (FindPeaksBody.new sampleHeatMaps 3 (1 / 2)).confidenceThreshold)[j]? = t[j]?)
      ∧ (0 : Int) ≤ 1 ∧ (1 : Int) ≤ 2)
    ∧ FindPeaksBody.runTable (findPeaks sampleDetect)
          (FindPeaksBody.new sampleHeatMaps 3 (1 / 2)) (Range.mk 0 2) [[], []]
        = FindPeaksBody.runTable (findPeaks sampleDetect)
            (FindPeaksBody.new sampleHeatMaps 3 (1 / 2)) (Range.mk 1 2)
            (FindPeaksBody.runTable (findPeaks sampleDetect)
              (FindPeaksBody.new sampleHeatMaps 3 (1 / 2)) (Range.mk 0 1) [[], []])
    ∧ (∀ j : Nat, ¬ ((0 : Int) ≤ (j : Int) ∧ (j : Int) < 2) →
        (FindPeaksBody.runTable (findPeaks sampleDetect)
          (FindPeaksBody.new sampleHeatMaps 3 (1 / 2)) (Range.mk 0 2) [[], []])[j]?
          = ([[], []] : PeakTable)[j]?)
    ∧ FindPeaksBody.runTable (findPeaks sampleDetect)
          (FindPeaksBody.new sampleHeatMaps 3 (1 / 2)) (Range.mk 0 2) [[], []]
        = FindPeaksBody.runTable (findPeaks sampleDetect)
            (FindPeaksBody.new sampleHeatMaps 3 (1 / 2)) (Range.mk 0 1)
            (FindPeaksBody.runTable (findPeaks sampleDetect)
              (FindPeaksBody.new sampleHeatMaps 3 (1 / 2)) (Range.mk 1 2) [[], []]) :=
  ⟨⟨fun t i j h => findPeaks_frame sampleDetect _ _ _ t i j h, by decide, by decide⟩,
    (findPeaksBody_range_split (findPeaks sampleDetect)
      (FindPeaksBody.new sampleHeatMaps 3 (1 / 2))
      (fun t i j h => findPeaks_frame sampleDetect _ _ _ t i j h)
      0 1 2 (by decide) (by decide) [[], []]).1,
    (findPeaksBody_range_split (findPeaks sampleDetect)
      (FindPeaksBody.new sampleHeatMaps 3 (1 / 2))
      (fun t i j h => findPeaks_frame sampleDetect _ _ _ t i j h)
      0 1 2 (by decide) (by decide) [[], []]).2.1,
    (findPeaksBody_range_split (findPeaks sampleDetect)
      (FindPeaksBody.new sampleHeatMaps 3 (1 / 2))
      (fun t i j h => findPeaks_frame sampleDetect _ _ _ t i j h)
      0 1 2 (by decide) (by decide) [[], []]).2.2
      (fun t u j h => findPeaks_local sampleDetect _ _ _ t u j h)⟩

/-! ### Claims on the configuration and the result classes -/

/-- C6.  A `HumanPoseEstimationResult` holds one `HumanPose` and the region of interest
it was constructed with; `get_pose` returns the stored pose and leaves the result, pose
and location, as it was. -/
theorem get_pose_returns_stored (location : Rect) (init : HumanPose)
    (r : HumanPoseEstimationResult) :
    (HumanPoseEstimationResult.new location init).location = location
    ∧ (HumanPoseEstimationResult.new location init).get_pose.2.location = location
    ∧ r.get_pose.1 = r.poses
    ∧ r.get_pose.2 = r
    ∧ r.get_pose.2.poses = r.poses ∧ r.get_pose.2.location = r.location := by
  refine ⟨rfl, rfl, rfl, rfl, rfl, rfl⟩

/-- C8.  The fixed minimum peak distance of `HumanPoseEstimation`, 3.0, is the value of
`6.0 / (stride / upsampleRatio)` on the default stride 8 and upsample ratio 4, the inner
division being the integer division `8 / 4 = 2`. -/
theorem minPeaksDistance_matches_formula :
    HumanPoseEstimation.new.minPeaksDistance
        = derivedMinPeaksDistance HumanPoseEstimation.new.stride
            HumanPoseEstimation.new.upsampleRatio
    ∧ HumanPoseEstimation.new.minPeaksDistance = 3
    ∧ HumanPoseEstimation.new.stride = 8 ∧ HumanPoseEstimation.new.upsampleRatio = 4
    ∧ Int.tdiv HumanPoseEstimation.new.stride HumanPoseEstimation.new.upsampleRatio = 2 := by
  refine ⟨?_, rfl, rfl, rfl, by decide⟩
  have h : Int.tdiv HumanPoseEstimation.new.stride HumanPoseEstimation.new.upsampleRatio = 2 := by
    decide
  simp only [derivedMinPeaksDistance, h]
  norm_num [HumanPoseEstimation.new]

/-- C9.  The default configuration of `HumanPoseEstimation` is within valid range: the
minimum peak distance is not negative; the four thresholds lie between 0 and 1; the
minimum joint count lies between 1 and the number of keypoints; the upsample ratio is
positive and divides the stride. -/
theorem default_configuration_in_range :
    0 ≤ HumanPoseEstimation.new.minPeaksDistance
    ∧ (0 ≤ HumanPoseEstimation.new.confidenceThreshold
        ∧ HumanPoseEstimation.new.confidenceThreshold ≤ 1)
    ∧ (0 ≤ HumanPoseEstimation.new.midPointsScoreThreshold
        ∧ HumanPoseEstimation.new.midPointsScoreThreshold ≤ 1)
    ∧ (0 ≤ HumanPoseEstimation.new.foundMidPointsRatioThreshold
        ∧ HumanPoseEstimation.new.foundMidPointsRatioThreshold ≤ 1)
    ∧ (0 ≤ HumanPoseEstimation.new.minSubsetScore
        ∧ HumanPoseEstimation.new.minSubsetScore ≤ 1)
    ∧ (1 ≤ HumanPoseEstimation.new.minJointsNumber
        ∧ HumanPoseEstimation.new.minJointsNumber
            ≤ (HumanPoseEstimation.new.keypointsNumber : Int))
    ∧ 0 < HumanPoseEstimation.new.upsampleRatio
    ∧ HumanPoseEstimation.new.stride % HumanPoseEstimation.new.upsampleRatio = 0
    ∧ HumanPoseEstimation.new.upsampleRatio ∣ HumanPoseEstimation.new.stride := by
  simp only [HumanPoseEstimation.new]
  norm_num

/-- C10.  `getMaleProbability` returns `true` exactly when the stored `male_probability_`
is not zero, so two results storing different non-zero probabilities (0.1 and 0.9, say)
return the same value; the getter leaves the result as it was. -/
theorem getMaleProbability_is_nonzero_test (r s : PersonAttribsDetectionResult) :
    (r.getMaleProbability.1 = true ↔ r.male_probability_ ≠ 0)
    ∧ r.getMaleProbability.2 = r
    ∧ (r.male_probability_ ≠ 0 → s.male_probability_ ≠ 0 →
        r.getMaleProbability.1 = s.getMaleProbability.1)
    ∧ (r.male_probability_ = 1 / 10 → s.male_probability_ = 9 / 10 →
        r.getMaleProbability.1 = true ∧ s.getMaleProbability.1 = true) := by
  refine ⟨?_, rfl, ?_, ?_⟩
  · simp [PersonAttribsDetectionResult.getMaleProbability]
  · intro hr hs
    simp only [PersonAttribsDetectionResult.getMaleProbability]
    rw [bne_iff_ne.mpr hr, bne_iff_ne.mpr hs]
  · intro hr hs
    simp only [PersonAttribsDetectionResult.getMaleProbability]
    constructor
    · apply bne_iff_ne.mpr
      rw [hr]
      norm_num
    · apply bne_iff_ne.mpr
      rw [hs]
      norm_num

end Ros2Openvino
